import Mathlib

/-!
Shallow embedding of the filtering / hotspot / report core of
`src/codet/codet.py` (class `CodeTrailExecutor`), together with proofs of
the specification's claims about it.

Conventions of the embedding:
* a Python `OrderedDict` becomes an association list (`List (key × value)`),
  which preserves insertion order exactly as the source relies on;
* Python string membership `a in b` (substring containment) becomes infix
  containment of the character lists, `a.data <:+: b.data`;
* Python list membership `x in xs` becomes `List.contains`;
* `str.lower()` becomes `strLower`, per-character lowering (the same
  function as `String.toLower`, stated on the character list);
* the numeric comparisons `count >= max_count * k/6` of
  `get_color_by_count` are read in exact rational arithmetic (`ℚ`): on the
  integer inputs the program feeds them, IEEE evaluation of `max_count*k/6`
  is exact, so the rational reading is faithful;
* file input/output of `generate_report` is modelled by returning the data
  that would be written, wrapped in `Option` (`none` = no file is opened).
-/

/-- One commit record, as produced by `GitAnalyzer` and consumed by
`CodeTrailExecutor` (`codet.py` accesses exactly these keys of the
per-commit dict). -/
structure CommitData where
  commit_author : String
  commit_email : String
  commit_summary : String
  commit_message : String
  commit_diff_text : String
  commit_changed_files : List String
  commit_date : String
  commit_url : String
deriving DecidableEq, Repr

/-- Tables `raw_commits` / `cooked_commits`: an ordered map from repository name to
an ordered map from commit hash to commit data (`OrderedDict` in the
source, hence insertion-ordered association lists here). -/
abbrev CommitTable := List (String × List (String × CommitData))

/-- The command-line arguments `cook` consults: `args.email`, `args.user`,
`args.keyword` (lists of strings) and `args.mode` (a string; the source
tests `args.mode == "union"`). -/
structure Args where
  email : List String
  user : List String
  keyword : List String
  mode : String
deriving Repr

/-- Python substring containment `needle in hay` on strings. -/
def strIn (needle hay : String) : Bool :=
  decide (needle.data <:+: hay.data)

/-- Python `str.lower()`: lower-case every character (written directly on
the character list, the same function as `String.toLower`). -/
def strLower (s : String) : String :=
  ⟨s.data.map Char.toLower⟩

/-- Lines 138-140 of `codet.py`: no email, user or keyword filter was given
(for the argument lists, Python falsiness coincides with emptiness). -/
def noFilterSpecified (args : Args) : Bool :=
  args.email.isEmpty && args.user.isEmpty && args.keyword.isEmpty

/-- Lines 144-169 of `codet.py`, union mode: the sequential `should_include`
computation.  Email: exact list membership of `commit_email`; author:
exact list membership of `commit_author`; keywords: case-insensitive
substring search in `commit_message + commit_diff_text`, each stage run
only when no earlier stage matched. -/
def unionShouldInclude (args : Args) (commit_data : CommitData) : Bool :=
  let should_include := false
  let should_include :=
    bif !args.email.isEmpty && args.email.contains commit_data.commit_email then
      true
    else should_include
  let should_include :=
    bif !should_include && (!args.user.isEmpty && args.user.contains commit_data.commit_author) then
      true
    else should_include
  let commit_text := commit_data.commit_message ++ commit_data.commit_diff_text
  let should_include :=
    bif !should_include && (!args.keyword.isEmpty &&
        args.keyword.any fun keyword => strIn (strLower keyword) (strLower commit_text)) then
      true
    else should_include
  should_include

/-- Lines 171-205 of `codet.py`, intersection mode: the sequential
`should_include` computation.  Every given email must be a substring of
`commit_email`, every given user a substring of `commit_author`, every
given keyword a case-insensitive substring of
`commit_message + commit_diff_text`; a criterion with an empty list is
skipped, and each later stage is only evaluated while `should_include`
still holds. -/
def intersectionShouldInclude (args : Args) (commit_data : CommitData) : Bool :=
  let should_include := true
  let has_email_filter := !args.email.isEmpty
  let has_user_filter := !args.user.isEmpty
  let has_keyword_filter := !args.keyword.isEmpty
  let should_include :=
    bif has_email_filter && !(args.email.all fun email => strIn email commit_data.commit_email) then
      false
    else should_include
  let should_include :=
    bif (has_user_filter && should_include) &&
        !(args.user.all fun user => strIn user commit_data.commit_author) then
      false
    else should_include
  let commit_text := commit_data.commit_message ++ commit_data.commit_diff_text
  let should_include :=
    bif (has_keyword_filter && should_include) &&
        !(args.keyword.all fun keyword => strIn (strLower keyword) (strLower commit_text)) then
      false
    else should_include
  should_include

/-- The per-commit decision of `cook` (`codet.py` lines 136-205): with no
filters at all every commit is kept; otherwise union or intersection mode
decides, `union_mode = (args.mode == "union")`. -/
def commitIncluded (args : Args) (commit_data : CommitData) : Bool :=
  bif noFilterSpecified args then true
  else bif args.mode == "union" then unionShouldInclude args commit_data
  else intersectionShouldInclude args commit_data

/-- The method `CodeTrailExecutor.cook` (`codet.py` lines 98-205) as a function of the
raw table: every repository of `raw_commits` gets an entry in
`cooked_commits`, holding exactly the commits (in order) whose data passes
`commitIncluded`. -/
def cook (args : Args) (raw_commits : CommitTable) : CommitTable :=
  raw_commits.map fun repo =>
    (repo.1, repo.2.filter fun commit => commitIncluded args commit.2)

/-! ### Characterizations of the two filter modes -/

theorem strIn_iff {needle hay : String} :
    strIn needle hay = true ↔ needle.data <:+: hay.data := by
  simp [strIn]

theorem unionShouldInclude_eq (args : Args) (commit_data : CommitData) :
    unionShouldInclude args commit_data =
      ((!args.email.isEmpty && args.email.contains commit_data.commit_email) ||
       (!args.user.isEmpty && args.user.contains commit_data.commit_author) ||
       (!args.keyword.isEmpty && args.keyword.any fun keyword =>
          strIn (strLower keyword)
            (strLower (commit_data.commit_message ++ commit_data.commit_diff_text)))) := by
  unfold unionShouldInclude
  dsimp only
  cases (!args.email.isEmpty && args.email.contains commit_data.commit_email) <;>
    cases (!args.user.isEmpty && args.user.contains commit_data.commit_author) <;>
      cases (!args.keyword.isEmpty && args.keyword.any fun keyword =>
        strIn (strLower keyword)
          (strLower (commit_data.commit_message ++ commit_data.commit_diff_text))) <;>
    rfl

theorem intersectionShouldInclude_eq (args : Args) (commit_data : CommitData) :
    intersectionShouldInclude args commit_data =
      ((args.email.isEmpty || args.email.all fun email => strIn email commit_data.commit_email) &&
       (args.user.isEmpty || args.user.all fun user => strIn user commit_data.commit_author) &&
       (args.keyword.isEmpty || args.keyword.all fun keyword =>
          strIn (strLower keyword)
            (strLower (commit_data.commit_message ++ commit_data.commit_diff_text)))) := by
  unfold intersectionShouldInclude
  dsimp only
  cases args.email.isEmpty <;>
    cases (args.email.all fun email => strIn email commit_data.commit_email) <;>
      cases args.user.isEmpty <;>
        cases (args.user.all fun user => strIn user commit_data.commit_author) <;>
          cases args.keyword.isEmpty <;>
            cases (args.keyword.all fun keyword =>
              strIn (strLower keyword)
                (strLower (commit_data.commit_message ++ commit_data.commit_diff_text))) <;>
    rfl

theorem isEmpty_or_all_iff {α : Type} (l : List α) (p : α → Bool) :
    (l.isEmpty || l.all p) = true ↔ ∀ a ∈ l, p a = true := by
  cases l <;> simp

/-- The commit decision in intersection mode, phrased at the `Prop` level:
each given email must be a substring of the author email, each given user
a substring of the author name, each given keyword a case-insensitive
substring of message ++ diff text; an empty list imposes nothing. -/
theorem commitIncluded_intersection_iff (e u k : List String) (c : CommitData) :
    commitIncluded ⟨e, u, k, "intersection"⟩ c = true ↔
      ((∀ s ∈ e, s.data <:+: c.commit_email.data) ∧
       (∀ s ∈ u, s.data <:+: c.commit_author.data) ∧
       (∀ s ∈ k,
          (strLower s).data <:+:
            (strLower (c.commit_message ++ c.commit_diff_text)).data)) := by
  unfold commitIncluded
  cases hnf : noFilterSpecified ⟨e, u, k, "intersection"⟩ with
  | true =>
    simp only [noFilterSpecified, Bool.and_eq_true, List.isEmpty_iff] at hnf
    obtain ⟨⟨he, hu⟩, hk⟩ := hnf
    subst he; subst hu; subst hk
    simp
  | false =>
    have hmode : (("intersection" : String) == "union") = false := rfl
    rw [hmode, cond_false, cond_false, intersectionShouldInclude_eq]
    simp only [Bool.and_eq_true, isEmpty_or_all_iff]
    simp [strIn_iff, and_assoc]

/-- The commit decision in union mode, phrased at the `Prop` level, valid
whenever at least one criterion list is non-empty (with all three empty
the no-filter branch of `cook` fires instead). -/
theorem commitIncluded_union_iff (e u k : List String) (c : CommitData)
    (h : e ≠ [] ∨ u ≠ [] ∨ k ≠ []) :
    commitIncluded ⟨e, u, k, "union"⟩ c = true ↔
      (c.commit_email ∈ e ∨ c.commit_author ∈ u ∨
       ∃ s ∈ k,
          (strLower s).data <:+:
            (strLower (c.commit_message ++ c.commit_diff_text)).data) := by
  have hnf : noFilterSpecified ⟨e, u, k, "union"⟩ = false := by
    simp only [noFilterSpecified]
    rcases h with h | h | h <;> simp [h]
  unfold commitIncluded
  have hmode : (("union" : String) == "union") = true := rfl
  rw [hnf, cond_false, hmode, cond_true, unionShouldInclude_eq]
  constructor
  · intro hpass
    simp only [Bool.or_eq_true, Bool.and_eq_true] at hpass
    rcases hpass with (⟨_, hmem⟩ | ⟨_, hmem⟩) | ⟨_, hany⟩
    · exact Or.inl (by simpa using hmem)
    · exact Or.inr (Or.inl (by simpa using hmem))
    · refine Or.inr (Or.inr ?_)
      simp only [List.any_eq_true] at hany
      obtain ⟨s, hs, hpass⟩ := hany
      exact ⟨s, hs, strIn_iff.mp hpass⟩
  · intro hmatch
    simp only [Bool.or_eq_true, Bool.and_eq_true]
    rcases hmatch with hmem | hmem | ⟨s, hs, hsub⟩
    · refine Or.inl (Or.inl ⟨?_, by simpa using hmem⟩)
      rcases e with _ | _
      · cases hmem
      · rfl
    · refine Or.inl (Or.inr ⟨?_, by simpa using hmem⟩)
      rcases u with _ | _
      · cases hmem
      · rfl
    · refine Or.inr ⟨?_, ?_⟩
      · rcases k with _ | _
        · cases hs
        · rfl
      · simp only [List.any_eq_true]
        exact ⟨s, hs, strIn_iff.mpr hsub⟩

/-! ### Claims C2, C4, C5, C6 -/

/-- C2: in INTERSECTION mode a commit passes the filter iff every string of
the email list is a substring of `commit_email`, every username a
substring of `commit_author`, and every keyword a case-insensitive
substring of the concatenation of commit message and diff text; an empty
criterion list imposes no constraint. -/
theorem claim_intersection_mode_semantics (e u k : List String) (c : CommitData) :
    commitIncluded ⟨e, u, k, "intersection"⟩ c = true ↔
      ((∀ s ∈ e, s.data <:+: c.commit_email.data) ∧
       (∀ s ∈ u, s.data <:+: c.commit_author.data) ∧
       (∀ s ∈ k,
          (strLower s).data <:+:
            (strLower (c.commit_message ++ c.commit_diff_text)).data)) :=
  commitIncluded_intersection_iff e u k c

/-- C4: with all three criterion lists empty, `cook` is a no-op in either
mode: the cooked table equals the raw table. -/
theorem claim_empty_filters_noop (mode : String) (raw_commits : CommitTable) :
    cook ⟨[], [], [], mode⟩ raw_commits = raw_commits := by
  have hinc : ∀ c, commitIncluded ⟨[], [], [], mode⟩ c = true := by
    intro c
    rfl
  unfold cook
  conv_rhs => rw [← List.map_id raw_commits]
  refine List.map_congr_left fun repo _ => ?_
  rw [show (repo.2.filter fun commit => commitIncluded ⟨[], [], [], mode⟩ commit.2) = repo.2
        from List.filter_eq_self.mpr fun commit _ => hinc commit.2]
  rfl

/-- C5: `cook` is idempotent, for any argument object. -/
theorem claim_cook_idempotent (args : Args) (raw_commits : CommitTable) :
    cook args (cook args raw_commits) = cook args raw_commits := by
  unfold cook
  rw [List.map_map]
  refine List.map_congr_left fun repo _ => ?_
  simp only [Function.comp_apply]
  rw [List.filter_filter]
  refine congrArg _ (List.filter_congr fun commit _ => ?_)
  cases commitIncluded args commit.2 <;> rfl

/-- C6: `cook` keeps every repository entry of the raw table (same names,
same order, possibly with zero commits), and per repository the surviving
hash sequence is a sublist (same relative order) of the raw hash
sequence. -/
theorem claim_cook_preserves_order (args : Args) (raw_commits : CommitTable) :
    (cook args raw_commits).map Prod.fst = raw_commits.map Prod.fst ∧
    List.Forall₂
      (fun cooked raw =>
        cooked.1 = raw.1 ∧ (cooked.2.map Prod.fst).Sublist (raw.2.map Prod.fst))
      (cook args raw_commits) raw_commits := by
  constructor
  · unfold cook
    rw [List.map_map]
    rfl
  · unfold cook
    rw [List.forall₂_map_left_iff]
    refine List.forall₂_same.mpr fun repo _ => ⟨rfl, ?_⟩
    exact (List.filter_sublist repo.2).map Prod.fst

/-! ### Claims C1 and C3 -/

/-- C1: with the same non-empty email, user and keyword lists, every commit
that passes the filter in intersection mode also passes it in union mode
(the keyword criterion alone already carries it through the union check). -/
theorem claim_union_supset_intersection (e u k : List String) (c : CommitData)
    (he : e ≠ []) (hu : u ≠ []) (hk : k ≠ [])
    (hpass : commitIncluded ⟨e, u, k, "intersection"⟩ c = true) :
    commitIncluded ⟨e, u, k, "union"⟩ c = true := by
  obtain ⟨-, -, hkw⟩ := (commitIncluded_intersection_iff e u k c).mp hpass
  refine (commitIncluded_union_iff e u k c (Or.inl he)).mpr ?_
  refine Or.inr (Or.inr ?_)
  obtain ⟨s, hs⟩ := List.exists_mem_of_ne_nil k hk
  exact ⟨s, hs, hkw s hs⟩

/-- A concrete commit record used to instantiate C1. -/
def witnessCommit : CommitData :=
  ⟨"Alice", "a@x.com", "fix bug", "fix bug in the parser", "", ["src/a.py"],
   "2024-01-01", "https://example.com/c1"⟩

theorem claim_union_supset_intersection_witness :
    commitIncluded ⟨["a@x.com"], ["Alice"], ["bug"], "union"⟩ witnessCommit = true :=
  claim_union_supset_intersection ["a@x.com"] ["Alice"] ["bug"] witnessCommit
    (by decide) (by decide) (by decide) (by decide)

/-- The two-commit scenario table of the spec (`h1` by `a@x.com` with
message "fix bug", `h2` by `b@x.com` with message "refactor"). -/
def scenarioH1 : CommitData :=
  ⟨"", "a@x.com", "", "fix bug", "", ["src/a.py"], "", ""⟩

def scenarioH2 : CommitData :=
  ⟨"", "b@x.com", "", "refactor", "", ["src/a.py", "docs/readme.md"], "", ""⟩

def scenarioRaw : CommitTable :=
  [("repoA", [("h1", scenarioH1), ("h2", scenarioH2)])]

/-- C3: in UNION mode (with some criterion present) a commit passes iff its
author email is exactly one of the given emails, or its author name
exactly one of the given usernames, or some keyword occurs
case-insensitively in message ++ diff text; on the spec's two-commit
scenario with emails ["a@x.com"] and keywords ["bug"] the cooked set is
exactly h1. -/
theorem claim_union_mode_semantics :
    (∀ (e u k : List String) (c : CommitData), e ≠ [] ∨ u ≠ [] ∨ k ≠ [] →
      (commitIncluded ⟨e, u, k, "union"⟩ c = true ↔
        (c.commit_email ∈ e ∨ c.commit_author ∈ u ∨
         ∃ s ∈ k,
            (strLower s).data <:+:
              (strLower (c.commit_message ++ c.commit_diff_text)).data))) ∧
    cook ⟨["a@x.com"], [], ["bug"], "union"⟩ scenarioRaw =
      [("repoA", [("h1", scenarioH1)])] :=
  ⟨commitIncluded_union_iff, by decide⟩

/-! ### Hotspot tiers (`get_color_by_count`, `codet.py` lines 282-294) -/

/-- The helper `get_color_by_count` (`codet.py` lines 282-294): ANSI color of a file's
tier, or `none` when the count falls below every threshold; the Python
float comparisons `count >= max_count * k/6` are read in exact rational
arithmetic. -/
def get_color_by_count (count max_count : Nat) : Option String :=
  if (count : ℚ) ≥ (max_count : ℚ) * 5 / 6 then some "\x1b[35m"
  else if (count : ℚ) ≥ (max_count : ℚ) * 4 / 6 then some "\x1b[31m"
  else if (count : ℚ) ≥ (max_count : ℚ) * 3 / 6 then some "\x1b[91m"
  else if (count : ℚ) ≥ (max_count : ℚ) * 2 / 6 then some "\x1b[33m"
  else if (count : ℚ) ≥ (max_count : ℚ) * 1 / 6 then some "\x1b[93m"
  else none

theorem rat_threshold_iff (c m k : Nat) :
    ((c : ℚ) ≥ (m : ℚ) * (k : ℚ) / 6) ↔ k * m ≤ 6 * c := by
  rw [ge_iff_le, div_le_iff (by norm_num : (0 : ℚ) < 6),
    show ((m : ℚ) * (k : ℚ) = ((k * m : ℕ) : ℚ)) from by push_cast; ring,
    show ((c : ℚ) * 6 = ((6 * c : ℕ) : ℚ)) from by push_cast; ring]
  exact Nat.cast_le

theorem ge_threshold5 (c m : Nat) :
    ((c : ℚ) ≥ (m : ℚ) * 5 / 6) = (5 * m ≤ 6 * c) :=
  propext (by exact_mod_cast rat_threshold_iff c m 5)

theorem ge_threshold4 (c m : Nat) :
    ((c : ℚ) ≥ (m : ℚ) * 4 / 6) = (4 * m ≤ 6 * c) :=
  propext (by exact_mod_cast rat_threshold_iff c m 4)

theorem ge_threshold3 (c m : Nat) :
    ((c : ℚ) ≥ (m : ℚ) * 3 / 6) = (3 * m ≤ 6 * c) :=
  propext (by exact_mod_cast rat_threshold_iff c m 3)

theorem ge_threshold2 (c m : Nat) :
    ((c : ℚ) ≥ (m : ℚ) * 2 / 6) = (2 * m ≤ 6 * c) :=
  propext (by exact_mod_cast rat_threshold_iff c m 2)

theorem ge_threshold1 (c m : Nat) :
    ((c : ℚ) ≥ (m : ℚ) * 1 / 6) = (1 * m ≤ 6 * c) :=
  propext (by exact_mod_cast rat_threshold_iff c m 1)

theorem lt_threshold5 (c m : Nat) :
    ((c : ℚ) < (m : ℚ) * 5 / 6) = (6 * c < 5 * m) := by
  rw [← not_le, ← ge_iff_le, ge_threshold5]
  exact propext (by omega)

theorem lt_threshold4 (c m : Nat) :
    ((c : ℚ) < (m : ℚ) * 4 / 6) = (6 * c < 4 * m) := by
  rw [← not_le, ← ge_iff_le, ge_threshold4]
  exact propext (by omega)

theorem lt_threshold3 (c m : Nat) :
    ((c : ℚ) < (m : ℚ) * 3 / 6) = (6 * c < 3 * m) := by
  rw [← not_le, ← ge_iff_le, ge_threshold3]
  exact propext (by omega)

theorem lt_threshold2 (c m : Nat) :
    ((c : ℚ) < (m : ℚ) * 2 / 6) = (6 * c < 2 * m) := by
  rw [← not_le, ← ge_iff_le, ge_threshold2]
  exact propext (by omega)

theorem lt_threshold1 (c m : Nat) :
    ((c : ℚ) < (m : ℚ) * 1 / 6) = (6 * c < 1 * m) := by
  rw [← not_le, ← ge_iff_le, ge_threshold1]
  exact propext (by omega)

/-- C7: the tiers compare the count to fractions of the maximum, highest
first, first match winning (purple = tier 5 down to yellow = tier 1,
`none` = excluded), and at `max_count = 12` a count of 10 is tier 5, 9 is
tier 4 and 1 is excluded. -/
theorem claim_tier_thresholds :
    (∀ count max_count : Nat,
      (get_color_by_count count max_count = some "\x1b[35m" ↔
        (count : ℚ) ≥ (max_count : ℚ) * 5 / 6) ∧
      (get_color_by_count count max_count = some "\x1b[31m" ↔
        ((count : ℚ) < (max_count : ℚ) * 5 / 6 ∧
         (count : ℚ) ≥ (max_count : ℚ) * 4 / 6)) ∧
      (get_color_by_count count max_count = some "\x1b[91m" ↔
        ((count : ℚ) < (max_count : ℚ) * 4 / 6 ∧
         (count : ℚ) ≥ (max_count : ℚ) * 3 / 6)) ∧
      (get_color_by_count count max_count = some "\x1b[33m" ↔
        ((count : ℚ) < (max_count : ℚ) * 3 / 6 ∧
         (count : ℚ) ≥ (max_count : ℚ) * 2 / 6)) ∧
      (get_color_by_count count max_count = some "\x1b[93m" ↔
        ((count : ℚ) < (max_count : ℚ) * 2 / 6 ∧
         (count : ℚ) ≥ (max_count : ℚ) * 1 / 6)) ∧
      (get_color_by_count count max_count = none ↔
        (count : ℚ) < (max_count : ℚ) * 1 / 6)) ∧
    get_color_by_count 10 12 = some "\x1b[35m" ∧
    get_color_by_count 9 12 = some "\x1b[31m" ∧
    get_color_by_count 1 12 = none := by
  have main : ∀ count max_count : Nat,
      (get_color_by_count count max_count = some "\x1b[35m" ↔
        (count : ℚ) ≥ (max_count : ℚ) * 5 / 6) ∧
      (get_color_by_count count max_count = some "\x1b[31m" ↔
        ((count : ℚ) < (max_count : ℚ) * 5 / 6 ∧
         (count : ℚ) ≥ (max_count : ℚ) * 4 / 6)) ∧
      (get_color_by_count count max_count = some "\x1b[91m" ↔
        ((count : ℚ) < (max_count : ℚ) * 4 / 6 ∧
         (count : ℚ) ≥ (max_count : ℚ) * 3 / 6)) ∧
      (get_color_by_count count max_count = some "\x1b[33m" ↔
        ((count : ℚ) < (max_count : ℚ) * 3 / 6 ∧
         (count : ℚ) ≥ (max_count : ℚ) * 2 / 6)) ∧
      (get_color_by_count count max_count = some "\x1b[93m" ↔
        ((count : ℚ) < (max_count : ℚ) * 2 / 6 ∧
         (count : ℚ) ≥ (max_count : ℚ) * 1 / 6)) ∧
      (get_color_by_count count max_count = none ↔
        (count : ℚ) < (max_count : ℚ) * 1 / 6) := by
    intro count max_count
    unfold get_color_by_count
    simp only [ge_threshold5, ge_threshold4, ge_threshold3, ge_threshold2, ge_threshold1,
      lt_threshold5, lt_threshold4, lt_threshold3, lt_threshold2, lt_threshold1]
    split_ifs with h1 h2 h3 h4 h5 <;>
      refine ⟨?_, ?_, ?_, ?_, ?_, ?_⟩ <;>
        first
          | exact iff_of_true rfl (by omega)
          | exact iff_of_false (by decide) (by omega)
  refine ⟨main, ?_, ?_, ?_⟩
  · exact ((main 10 12).1).mpr (by rw [ge_threshold5])
  · exact ((main 9 12).2.1).mpr (by rw [lt_threshold5, ge_threshold4]; omega)
  · exact ((main 1 12).2.2.2.2.2).mpr (by rw [lt_threshold1]; omega)

/-! ### Hotspot accumulation (`CodeTrailExecutor.hotspot`, `codet.py`
lines 250-299) -/

/-- Ordered-dictionary lookup (Python `d[k]` and `k in d`) on an
insertion-ordered association list. -/
def alookup {α : Type} : List (String × α) → String → Option α
  | [], _ => none
  | (key, v) :: rest, q => if key = q then some v else alookup rest q

/-- In-place increment of an existing key (`hotspots[file_path] += 1`):
the first entry with the key gets its value bumped, positions are kept. -/
def incrCount : List (String × Nat) → String → List (String × Nat)
  | [], _ => []
  | (key, v) :: rest, q =>
      if key = q then (key, v + 1) :: rest else (key, v) :: incrCount rest q

/-- The two dictionaries built by `hotspot`: `hotspots` (file path →
change count) and `file_repos` (file path → repository recorded when the
path was first seen). -/
structure HotspotState where
  hotspots : List (String × Nat)
  file_repos : List (String × String)
deriving Repr

/-- Lines 261-266 of `codet.py`: one changed file of one commit updates the
state — a fresh path gets count 1 and the current repository recorded, a
known path only has its count incremented. -/
def updateHotspot (repo_name : String) (st : HotspotState) (file_path : String) : HotspotState :=
  match alookup st.hotspots file_path with
  | none => ⟨st.hotspots ++ [(file_path, 1)], st.file_repos ++ [(file_path, repo_name)]⟩
  | some _ => ⟨incrCount st.hotspots file_path, st.file_repos⟩

/-- Lines 255-266 of `codet.py`: the scan over every changed file of every
commit of every repository of the cooked table. -/
def hotspotScan (cooked_commits : CommitTable) : HotspotState :=
  cooked_commits.foldl
    (fun st repo =>
      repo.2.foldl
        (fun st commit => commit.2.commit_changed_files.foldl (updateHotspot repo.1) st)
        st)
    ⟨[], []⟩

/-- Lines 296-299 of `codet.py`: `max_changes`, the maximum change count (0
when there are no files). -/
def maxChanges (hotspots : List (String × Nat)) : Nat :=
  hotspots.foldl (fun m p => max m p.2) 0

/-- The flattened sequence of (repository, changed file) occurrences, in
exactly the order `hotspotScan` visits them. -/
def fileOccurrences (cooked_commits : CommitTable) : List (String × String) :=
  cooked_commits.flatMap fun repo =>
    repo.2.flatMap fun commit =>
      commit.2.commit_changed_files.map fun file_path => (repo.1, file_path)

/-- One occurrence applied to the state. -/
def occStep (st : HotspotState) (occ : String × String) : HotspotState :=
  updateHotspot occ.1 st occ.2

theorem files_foldl_eq (r : String) (files : List String) (st : HotspotState) :
    files.foldl (updateHotspot r) st =
      (files.map fun file_path => (r, file_path)).foldl occStep st := by
  induction files generalizing st with
  | nil => rfl
  | cons f fs ih =>
    simp only [List.foldl_cons, List.map_cons]
    exact ih _

theorem commits_foldl_eq (r : String) (commits : List (String × CommitData))
    (st : HotspotState) :
    commits.foldl
        (fun st commit => commit.2.commit_changed_files.foldl (updateHotspot r) st) st =
      (commits.flatMap fun commit =>
        commit.2.commit_changed_files.map fun file_path => (r, file_path)).foldl occStep st := by
  induction commits generalizing st with
  | nil => rfl
  | cons c cs ih =>
    simp only [List.foldl_cons, List.flatMap_cons, List.foldl_append]
    rw [files_foldl_eq]
    exact ih _

theorem hotspotScan_eq_foldl (cooked_commits : CommitTable) :
    hotspotScan cooked_commits = (fileOccurrences cooked_commits).foldl occStep ⟨[], []⟩ := by
  unfold hotspotScan fileOccurrences
  generalize (⟨[], []⟩ : HotspotState) = st
  induction cooked_commits generalizing st with
  | nil => rfl
  | cons repo repos ih =>
    simp only [List.foldl_cons, List.flatMap_cons, List.foldl_append]
    rw [commits_foldl_eq]
    exact ih _

theorem alookup_append {α : Type} (xs ys : List (String × α)) (q : String) :
    alookup (xs ++ ys) q =
      (match alookup xs q with
       | some v => some v
       | none => alookup ys q) := by
  induction xs with
  | nil => rfl
  | cons p ps ih =>
    obtain ⟨k, v⟩ := p
    simp only [List.cons_append, alookup]
    split
    · rfl
    · exact ih

theorem alookup_incrCount (l : List (String × Nat)) (q fp : String) :
    alookup (incrCount l fp) q =
      if q = fp then (alookup l q).map (· + 1) else alookup l q := by
  induction l with
  | nil =>
    simp only [incrCount, alookup, Option.map_none']
    split <;> rfl
  | cons p ps ih =>
    obtain ⟨k, v⟩ := p
    by_cases hk : k = fp
    · subst hk
      by_cases hq : k = q
      · subst hq
        simp [incrCount, alookup]
      · have hq' : ¬q = k := fun h => hq h.symm
        simp [incrCount, alookup, hq, hq']
    · by_cases hq : k = q
      · subst hq
        simp [incrCount, alookup, hk]
      · simp [incrCount, alookup, hk, hq, ih]

/-- The update `updateHotspot` keeps `hotspots` and `file_repos` defined on the same
keys (they are always inserted together). -/
theorem occStep_inv (st : HotspotState)
    (hinv : ∀ q, (alookup st.hotspots q).isSome = (alookup st.file_repos q).isSome)
    (occ : String × String) :
    ∀ q, (alookup (occStep st occ).hotspots q).isSome
        = (alookup (occStep st occ).file_repos q).isSome := by
  intro q
  have h := hinv q
  unfold occStep updateHotspot
  cases hl : alookup st.hotspots occ.2 with
  | none =>
    dsimp only
    rw [alookup_append, alookup_append]
    cases h1 : alookup st.hotspots q <;> cases h2 : alookup st.file_repos q <;>
      rw [h1, h2] at h <;> simp_all [alookup]
    split <;> rfl
  | some v =>
    dsimp only
    rw [alookup_incrCount]
    split
    · rw [Option.isSome_map']
      exact h
    · exact h

/-- The repository recorded for a path after a run of occurrences: an
already-recorded owner survives unchanged, otherwise it is the repository
of the first occurrence of the path. -/
theorem foldl_occStep_file_repos (l : List (String × String)) (st : HotspotState)
    (hinv : ∀ q, (alookup st.hotspots q).isSome = (alookup st.file_repos q).isSome)
    (fp : String) :
    alookup (l.foldl occStep st).file_repos fp =
      (match alookup st.file_repos fp with
       | some r => some r
       | none => (l.find? fun occ => occ.2 == fp).map Prod.fst) := by
  induction l generalizing st with
  | nil =>
    cases h : alookup st.file_repos fp <;> simp [h]
  | cons occ rest ih =>
    obtain ⟨r, p⟩ := occ
    simp only [List.foldl_cons]
    rw [ih _ (occStep_inv st hinv (r, p))]
    unfold occStep updateHotspot
    cases hl : alookup st.hotspots p with
    | some v =>
      dsimp only
      cases hfr : alookup st.file_repos fp with
      | some r' => rfl
      | none =>
        have hps : ¬((p : String) == fp) = true := by
          simp only [beq_iff_eq]
          intro he
          subst he
          have h2 := hinv p
          rw [hl, hfr] at h2
          simp at h2
        have hcons : List.find? (fun occ : String × String => occ.2 == fp) ((r, p) :: rest) =
            List.find? (fun occ : String × String => occ.2 == fp) rest :=
          List.find?_cons_of_neg _ hps
        rw [hcons]
    | none =>
      dsimp only
      rw [alookup_append]
      cases hfr : alookup st.file_repos fp with
      | some r' => rfl
      | none =>
        by_cases hps : p = fp
        · subst hps
          rw [List.find?_cons_of_pos _ (by simp)]
          simp [alookup]
        · rw [List.find?_cons_of_neg _ (by simp [hps])]
          simp [alookup, hps]

/-- The count recorded for a path after a run of occurrences: an existing
count grows by the number of occurrences of the path, a fresh path ends at
exactly its number of occurrences (absent when that is zero). -/
theorem foldl_occStep_hotspots (l : List (String × String)) (st : HotspotState)
    (fp : String) :
    alookup (l.foldl occStep st).hotspots fp =
      (match alookup st.hotspots fp with
       | some v => some (v + (l.filter fun occ => occ.2 == fp).length)
       | none =>
         if (l.filter fun occ => occ.2 == fp).length = 0 then none
         else some (l.filter fun occ => occ.2 == fp).length) := by
  induction l generalizing st with
  | nil =>
    cases h : alookup st.hotspots fp <;> simp [h]
  | cons occ rest ih =>
    obtain ⟨r, p⟩ := occ
    simp only [List.foldl_cons]
    rw [ih]
    unfold occStep updateHotspot
    by_cases hps : p = fp
    · subst hps
      rw [List.filter_cons_of_pos (by simp)]
      cases hl : alookup st.hotspots p with
      | some v =>
        dsimp only
        rw [alookup_incrCount, if_pos rfl, hl]
        simp only [Option.map_some', List.length_cons]
        exact congrArg some (by omega)
      | none =>
        dsimp only
        rw [alookup_append, hl]
        simp [alookup, List.length_cons]
        omega
    · rw [List.filter_cons_of_neg (by simp [hps])]
      cases hl : alookup st.hotspots p with
      | some v =>
        dsimp only
        rw [alookup_incrCount, if_neg (fun h => hps h.symm)]
      | none =>
        dsimp only
        rw [alookup_append]
        cases h2 : alookup st.hotspots fp <;> simp [alookup, hps, h2]

/-- C8: for every file path, the owner recorded in `file_repos` is the
repository of the first occurrence of the path in scan order (first-seen
wins, later repositories never overwrite it), and the count recorded in
`hotspots` is exactly the total number of occurrences of the path. -/
theorem claim_hotspot_first_seen_owner (cooked_commits : CommitTable) (file_path : String) :
    alookup (hotspotScan cooked_commits).file_repos file_path =
      ((fileOccurrences cooked_commits).find? fun occ => occ.2 == file_path).map Prod.fst ∧
    alookup (hotspotScan cooked_commits).hotspots file_path =
      (if ((fileOccurrences cooked_commits).filter fun occ => occ.2 == file_path).length = 0
       then none
       else some ((fileOccurrences cooked_commits).filter fun occ => occ.2 == file_path).length) := by
  rw [hotspotScan_eq_foldl]
  constructor
  · rw [foldl_occStep_file_repos _ _ (fun q => rfl)]
    rfl
  · rw [foldl_occStep_hotspots]
    rfl

theorem incrCount_ne_nil (l : List (String × Nat)) (fp : String) (h : l ≠ []) :
    incrCount l fp ≠ [] := by
  cases l with
  | nil => exact absurd rfl h
  | cons p ps =>
    obtain ⟨k, v⟩ := p
    simp only [incrCount]
    split <;> simp

theorem occStep_hotspots_ne_nil (st : HotspotState) (occ : String × String) :
    (occStep st occ).hotspots ≠ [] := by
  unfold occStep updateHotspot
  cases hl : alookup st.hotspots occ.2 with
  | none => simp
  | some v =>
    dsimp only
    apply incrCount_ne_nil
    intro he
    rw [he] at hl
    simp [alookup] at hl

theorem foldl_occStep_ne_nil (l : List (String × String)) (st : HotspotState)
    (h : st.hotspots ≠ []) : (l.foldl occStep st).hotspots ≠ [] := by
  induction l generalizing st with
  | nil => exact h
  | cons occ rest ih => exact ih _ (occStep_hotspots_ne_nil st occ)

theorem scan_hotspots_ne_nil (cooked_commits : CommitTable)
    (hocc : fileOccurrences cooked_commits ≠ []) :
    (hotspotScan cooked_commits).hotspots ≠ [] := by
  rw [hotspotScan_eq_foldl]
  cases hfo : fileOccurrences cooked_commits with
  | nil => exact absurd hfo hocc
  | cons occ rest =>
    simp only [List.foldl_cons]
    exact foldl_occStep_ne_nil rest _ (occStep_hotspots_ne_nil _ occ)

theorem le_foldl_max (l : List (String × Nat)) (a : Nat) :
    a ≤ l.foldl (fun m q => max m q.2) a := by
  induction l generalizing a with
  | nil => exact Nat.le_refl a
  | cons q qs ih => exact Nat.le_trans (Nat.le_max_left a q.2) (ih _)

theorem mem_le_foldl_max (l : List (String × Nat)) :
    ∀ (a : Nat) (p : String × Nat), p ∈ l → p.2 ≤ l.foldl (fun m q => max m q.2) a := by
  induction l with
  | nil =>
    intro a p hp
    cases hp
  | cons q qs ih =>
    intro a p hp
    simp only [List.foldl_cons]
    rcases List.mem_cons.mp hp with he | hm
    · subst he
      exact Nat.le_trans (Nat.le_max_right a p.2) (le_foldl_max qs _)
    · exact ih _ p hm

theorem foldl_max_choice (l : List (String × Nat)) :
    ∀ a : Nat, l.foldl (fun m q => max m q.2) a = a ∨
      ∃ p ∈ l, l.foldl (fun m q => max m q.2) a = p.2 := by
  induction l with
  | nil =>
    intro a
    exact Or.inl rfl
  | cons q qs ih =>
    intro a
    simp only [List.foldl_cons]
    rcases ih (max a q.2) with h | ⟨p, hp, he⟩
    · rcases max_choice a q.2 with hm | hm
      · exact Or.inl (by rw [h, hm])
      · exact Or.inr ⟨q, List.mem_cons_self q qs, by rw [h, hm]⟩
    · exact Or.inr ⟨p, List.mem_cons_of_mem q hp, he⟩

theorem maxChanges_attained (l : List (String × Nat)) (h : l ≠ []) :
    ∃ p ∈ l, p.2 = maxChanges l := by
  unfold maxChanges
  rcases foldl_max_choice l 0 with h0 | ⟨p, hp, he⟩
  · obtain ⟨p, hp⟩ := List.exists_mem_of_ne_nil l h
    have hle := mem_le_foldl_max l 0 p hp
    rw [h0] at hle
    exact ⟨p, hp, by rw [h0]; omega⟩
  · exact ⟨p, hp, he.symm⟩

theorem mem_fileOccurrences (cooked_commits : CommitTable)
    (repo : String × List (String × CommitData)) (hr : repo ∈ cooked_commits)
    (commit : String × CommitData) (hc : commit ∈ repo.2)
    (fp : String) (hf : fp ∈ commit.2.commit_changed_files) :
    (repo.1, fp) ∈ fileOccurrences cooked_commits := by
  unfold fileOccurrences
  refine List.mem_flatMap.mpr ⟨repo, hr, ?_⟩
  refine List.mem_flatMap.mpr ⟨commit, hc, ?_⟩
  exact List.mem_map.mpr ⟨fp, hf, rfl⟩

/-- C10: if some commit of the cooked table changed at least one file, then
some entry of `hotspots` survives tiering — an entry whose count is the
maximum gets the top color — so the "no qualifying files" branch is
reachable only when no commit changed any file. -/
theorem claim_hotspot_survivor_exists (cooked_commits : CommitTable)
    (h : ∃ repo ∈ cooked_commits, ∃ commit ∈ repo.2,
      commit.2.commit_changed_files ≠ []) :
    ∃ entry ∈ (hotspotScan cooked_commits).hotspots,
      get_color_by_count entry.2 (maxChanges (hotspotScan cooked_commits).hotspots) ≠
        none := by
  obtain ⟨repo, hr, commit, hc, hcf⟩ := h
  obtain ⟨fp, hf⟩ := List.exists_mem_of_ne_nil _ hcf
  have hmem := mem_fileOccurrences cooked_commits repo hr commit hc fp hf
  have hocc : fileOccurrences cooked_commits ≠ [] := List.ne_nil_of_mem hmem
  have hne := scan_hotspots_ne_nil cooked_commits hocc
  obtain ⟨p, hp, hpmax⟩ := maxChanges_attained _ hne
  refine ⟨p, hp, ?_⟩
  rw [hpmax]
  have hcond : ((maxChanges (hotspotScan cooked_commits).hotspots : ℚ) ≥
      (maxChanges (hotspotScan cooked_commits).hotspots : ℚ) * 5 / 6) := by
    rw [ge_threshold5]
    omega
  unfold get_color_by_count
  rw [if_pos hcond]
  simp

theorem claim_hotspot_survivor_exists_witness :
    ∃ entry ∈ (hotspotScan scenarioRaw).hotspots,
      get_color_by_count entry.2 (maxChanges (hotspotScan scenarioRaw).hotspots) ≠
        none :=
  claim_hotspot_survivor_exists scenarioRaw (by decide)

/-! ### Report generation (`CodeTrailExecutor.generate_report`,
`codet.py` lines 387-473) -/

/-- Externally visible outcome of `generate_report`: the report file as
data (`none` = no file was opened or written) and whether the
empty-table warning was logged. -/
structure ReportOutcome where
  report_file : Option (List (String × List String))
  warning_logged : Bool
deriving Repr

/-- The method `CodeTrailExecutor.generate_report` with its file system effects
represented as data: when the cooked table is empty (Python falsiness of
the dict at line 397) no file is opened, the warning is logged and the
method returns; otherwise the file is opened and written with one banner
section per repository that still has commits (repositories with no
commits are skipped, lines 413-415), each listing its commit hashes in
table order. -/
def generate_report (cooked_commits : CommitTable) : ReportOutcome :=
  if cooked_commits.isEmpty then ⟨none, true⟩
  else
    ⟨some ((cooked_commits.filter fun repo => !repo.2.isEmpty).map
        fun repo => (repo.1, repo.2.map Prod.fst)), false⟩

/-- C9: on an empty cooked table the report generator performs no file
output and logs a warning; a report file is produced exactly when the
cooked table is non-empty. -/
theorem claim_report_empty_no_io (cooked_commits : CommitTable) :
    ((generate_report cooked_commits).report_file.isSome ↔ cooked_commits ≠ []) ∧
    (cooked_commits = [] →
      (generate_report cooked_commits).report_file = none ∧
      (generate_report cooked_commits).warning_logged = true) := by
  unfold generate_report
  by_cases h : cooked_commits = [] <;> simp [h]
